import Mathlib

/-!
Shallow embedding of the SLaNg math library (rational-function algebra engine):
terms, polynomials, fractions with scalar-or-polynomial denominators, and the
evaluation / differentiation / integration / simplification / expansion
operations, together with proofs about them.

Coefficients are modelled as exact rationals (`ℚ`); exponents as integers
(`ℤ`).  JS objects (variable → exponent maps, and variable bindings) are
modelled as association lists in insertion order, respectively as partial
functions `String → Option ℚ`.
-/

namespace SLaNg

/-- Error kinds an operation can fail with. -/
inductive Err where
  | MissingVariable (v : String)
  | DivisionByZero
  | LogarithmicIntegral
  | UnsupportedIntegral
  | UnsupportedExpansion
deriving DecidableEq, Repr

/-- Variable-to-exponent mapping of a term, in insertion order (a JS object). -/
abbrev VarMap := List (String × ℤ)

/-- Lookup of a key in a JS object (first occurrence; keys are unique in JS). -/
def objGet (l : VarMap) (v : String) : Option ℤ :=
  match l with
  | [] => none
  | (k, e) :: rest => if k = v then some e else objGet rest v

/-- JS property assignment `obj[v] = e`: replace in place, else append. -/
def objSet (l : VarMap) (v : String) (e : ℤ) : VarMap :=
  match l with
  | [] => [(v, e)]
  | (k, e0) :: rest => if k = v then (k, e) :: rest else (k, e0) :: objSet rest v e

/-- JS `delete obj[v]`: remove the key, keeping the order of the others. -/
def objRemove (l : VarMap) (v : String) : VarMap :=
  match l with
  | [] => []
  | (k, e0) :: rest => if k = v then rest else (k, e0) :: objRemove rest v

/-- A term: a coefficient and an optional variable→exponent mapping
(`var` is absent on constant terms, mirroring the JS representation). -/
structure Term where
  coeff : ℚ
  var : Option VarMap := none
deriving DecidableEq, Repr

/-- A polynomial: an ordered list of terms. -/
structure Polynomial where
  terms : List Term
deriving DecidableEq, Repr

/-- A denominator is either a plain number or a polynomial. -/
inductive Deno where
  | scalar (k : ℚ)
  | poly (p : Polynomial)
deriving DecidableEq, Repr

/-- A fraction: polynomial numerator over a scalar-or-polynomial denominator. -/
structure Fraction where
  numi : Polynomial
  deno : Deno
deriving DecidableEq, Repr

/-- Mirror of `createTerm(coeff, vars = {})`: the `var` field is only set when
the supplied mapping is non-empty. -/
def createTerm (c : ℚ) (vars : VarMap := []) : Term :=
  if vars = [] then { coeff := c } else { coeff := c, var := some vars }

/-- Mirror of `hasSimpleDenominator`. -/
def hasSimpleDenominator (f : Fraction) : Bool :=
  match f.deno with
  | .scalar _ => true
  | .poly _ => false

/-- Truncation toward zero, as JS `%` uses for its implicit quotient. -/
def ratTrunc (q : ℚ) : ℤ := if q < 0 then -⌊-q⌋ else ⌊q⌋

/-- JS remainder `a % b` (truncated division) for `b ≠ 0`. -/
def ratMod (a b : ℚ) : ℚ := a - b * (ratTrunc (a / b) : ℚ)

/-- The Euclidean `while (b) { [a, b] = [b, a % b] }` loop of `gcd`, with a
fuel parameter bounding the number of iterations. -/
def gcdLoop : ℕ → ℚ → ℚ → ℚ
  | 0, a, _ => a
  | fuel + 1, a, b => if b = 0 then a else gcdLoop fuel b (ratMod a b)

/-- Mirror of `gcd(a, b)`: Euclid on the absolute values, returning `1` instead
of `0` (the `return a || 1`).  The fuel passed to the loop is sufficient for
all integer-valued inputs (see `gcdLoop_eq_gcd`). -/
def jsGcd (x y : ℚ) : ℚ :=
  let a := |x|
  let b := |y|
  let r := gcdLoop ((b * ((a.den * b.den : ℕ) : ℚ)).num.natAbs + 1) a b
  if r = 0 then 1 else r

/-- Mirror of `evaluateTerm(term, values)`: multiply the coefficient by
`values[v] ^ e` for every entry of the mapping, failing on an unbound one. -/
def evaluateTerm (t : Term) (values : String → Option ℚ) : Except Err ℚ :=
  (t.var.getD []).foldlM
    (fun acc ve =>
      match values ve.1 with
      | none => .error (.MissingVariable ve.1)
      | some x => .ok (acc * x ^ (ve.2 : ℤ)))
    t.coeff

/-- Mirror of `evaluatePolynomial`: sum of the evaluated terms. -/
def evaluatePolynomial (p : Polynomial) (values : String → Option ℚ) : Except Err ℚ :=
  p.terms.foldlM (fun s t => (evaluateTerm t values).map (s + ·)) 0

/-- Mirror of `evaluateFraction`: numerator sum divided by the scalar
denominator, or by the evaluated denominator polynomial.  Note the source
performs a plain (unchecked) division in both branches. -/
def evaluateFraction (f : Fraction) (values : String → Option ℚ) : Except Err ℚ :=
  match f.deno with
  | .scalar k => (evaluatePolynomial f.numi values).map (· / k)
  | .poly d => do
      let n ← evaluatePolynomial f.numi values
      let dv ← evaluatePolynomial d values
      pure (n / dv)

/-- Mirror of `integrateTerm(term, indvar)` (power rule). -/
def integrateTerm (t : Term) (v : String) : Except Err Term :=
  let power := (objGet (t.var.getD []) v).getD 0
  if power = -1 then .error .LogarithmicIntegral
  else .ok { coeff := t.coeff / ((power + 1 : ℤ) : ℚ),
             var := some (objSet (t.var.getD []) v (power + 1)) }

/-- Mirror of `differentiateTerm(term, indvar)` (power rule). -/
def differentiateTerm (t : Term) (v : String) : Term :=
  match t.var with
  | none => createTerm 0
  | some l =>
    match objGet l v with
    | none => createTerm 0
    | some p =>
      let c := t.coeff * (p : ℚ)
      if p = 1 then
        let l' := objRemove l v
        if l' = [] then { coeff := c } else { coeff := c, var := some l' }
      else { coeff := c, var := some (objSet l v (p - 1)) }

/-- Mirror of `differentiatePolynomial`: term-wise derivative with exact
zero-coefficient terms filtered out. -/
def differentiatePolynomial (p : Polynomial) (v : String) : Polynomial :=
  ⟨(p.terms.map (fun t => differentiateTerm t v)).filter (fun t => decide (t.coeff ≠ 0))⟩

/-- Mirror of `addPolynomials`: concatenation of the term lists. -/
def addPolynomials (p q : Polynomial) : Polynomial :=
  ⟨p.terms ++ q.terms⟩

/-- Mirror of `subtractPolynomials`: add the coefficient-negated subtrahend. -/
def subtractPolynomials (p q : Polynomial) : Polynomial :=
  addPolynomials p ⟨q.terms.map (fun t => { t with coeff := -t.coeff })⟩

/-- Mirror of `multiplyTerms`: coefficients multiply; the variable mappings are
merged by first copying `term1`'s entries and then adding `term2`'s exponents
onto them (`vars[v] = (vars[v] || 0) + pow`). -/
def multiplyTerms (t1 t2 : Term) : Term :=
  let vars0 := (t1.var.getD []).foldl (fun acc ve => objSet acc ve.1 ve.2) []
  let vars := (t2.var.getD []).foldl
    (fun acc ve => objSet acc ve.1 ((objGet acc ve.1).getD 0 + ve.2)) vars0
  if vars = [] then { coeff := t1.coeff * t2.coeff }
  else { coeff := t1.coeff * t2.coeff, var := some vars }

/-- Mirror of `multiplyPolynomials`: Cartesian cross product of the term lists,
outer loop over the first factor. -/
def multiplyPolynomials (p q : Polynomial) : Polynomial :=
  ⟨(p.terms.map (fun t1 => q.terms.map (fun t2 => multiplyTerms t1 t2))).flatten⟩

/-- Mirror of `multiplyPolynomialByConstant`. -/
def multiplyPolynomialByConstant (p : Polynomial) (c : ℚ) : Polynomial :=
  ⟨p.terms.map (fun t => { t with coeff := t.coeff * c })⟩

/-- Mirror of `differentiateFraction(fraction, indvar)`: keep a scalar
denominator; otherwise apply the quotient rule
`(f, g) ↦ (f'g - fg') / g²` with no simplification of the new numerator. -/
def differentiateFraction (f : Fraction) (v : String) : Fraction :=
  match f.deno with
  | .scalar k => ⟨differentiatePolynomial f.numi v, .scalar k⟩
  | .poly g =>
    let fp := differentiatePolynomial f.numi v
    let gp := differentiatePolynomial g v
    ⟨subtractPolynomials (multiplyPolynomials fp g) (multiplyPolynomials f.numi gp),
      .poly (multiplyPolynomials g g)⟩

/-- The near-zero threshold `1e-10` used by the simplifier. -/
def eps : ℚ := 1 / 10 ^ 10

/-- Total degree of a term: the sum of its exponents (`0` for a constant). -/
def totalDegree (t : Term) : ℤ :=
  ((t.var.getD []).map (·.2)).sum

/-- Sort order of the simplifier: descending total degree (the comparator
`degreeB - degreeA`). -/
def degGE (a b : Term) : Prop := totalDegree b ≤ totalDegree a

instance : DecidableRel degGE := fun a b => inferInstanceAs (Decidable (totalDegree b ≤ totalDegree a))

instance : IsTotal Term degGE := ⟨fun _ _ => le_total _ _⟩

instance : IsTrans Term degGE := ⟨fun _ _ _ h1 h2 => le_trans h2 h1⟩

/-- One step of the `Map`-based grouping of `simplifyPolynomial`: add the
coefficient onto the entry with the same variable signature (keeping its
position), or append a new entry. -/
def addToGroup (acc : List Term) (t : Term) : List Term :=
  match acc with
  | [] => [t]
  | g :: gs =>
    if g.var = t.var then { g with coeff := g.coeff + t.coeff } :: gs
    else g :: addToGroup gs t

/-- Group a term list by variable signature, in first-occurrence order
(insertion order of the JS `Map`). -/
def groupTerms (ts : List Term) : List Term :=
  ts.foldl addToGroup []

/-- Mirror of `simplifyPolynomial`: group like terms, drop near-zero
coefficients, and stable-sort by descending total degree. -/
def simplifyPolynomial (p : Polynomial) : Polynomial :=
  ⟨List.insertionSort degGE
    ((groupTerms p.terms).filter (fun t => decide (eps < |t.coeff|)))⟩

/-- Mirror of `simplifyFraction`: simplify the numerator; with a scalar
denominator and a non-empty simplified numerator, reduce by the GCD of the
coefficients and the denominator when that GCD exceeds 1; with a polynomial
denominator, simplify it as well. -/
def simplifyFraction (f : Fraction) : Fraction :=
  let sn := simplifyPolynomial f.numi
  match f.deno with
  | .scalar d =>
    match sn.terms with
    | [] => ⟨sn, .scalar d⟩
    | c :: rest =>
      let numGCD := (rest.map (·.coeff)).foldl jsGcd c.coeff
      let denoGCD := jsGcd numGCD d
      if 1 < denoGCD then
        ⟨⟨(c :: rest).map (fun t => { t with coeff := t.coeff / denoGCD })⟩,
          .scalar (d / denoGCD)⟩
      else ⟨sn, .scalar d⟩
  | .poly dp => ⟨sn, .poly (simplifyPolynomial dp)⟩

/-- Mirror of `expandFractions(frac1, frac2)`: cross-multiply the numerators,
combine the denominators according to their scalar/polynomial shapes, and
simplify the resulting fraction.  The source never rejects any denominator
shape; `expandDeno` is its `hasSimpleDenominator` if-chain combining the two
denominators. -/
def expandDeno : Deno → Deno → Deno
  | .scalar d1, .scalar d2 => .scalar (d1 * d2)
  | .scalar d1, .poly p2 => .poly (multiplyPolynomialByConstant p2 d1)
  | .poly p1, .scalar d2 => .poly (multiplyPolynomialByConstant p1 d2)
  | .poly p1, .poly p2 => .poly (multiplyPolynomials p1 p2)

def expandFractions (f1 f2 : Fraction) : Fraction :=
  let expandedNumi := multiplyPolynomials f1.numi f2.numi
  let newDeno : Deno := expandDeno f1.deno f2.deno
  simplifyFraction ⟨expandedNumi, newDeno⟩

/-- The accumulation loop of `numericalIntegrateFraction`: for
`i = 0, …, numSteps` evaluate the fraction at the single binding
`{v ↦ lower + i·h}` and add the Simpson-weighted sample onto the sum. -/
def simpsonLoop (f : Fraction) (lower h : ℚ) (v : String) (numSteps : ℕ) :
    Except Err ℚ :=
  (List.range (numSteps + 1)).foldlM
    (fun (sum : ℚ) (i : ℕ) =>
      (evaluateFraction f (fun w => if w = v then some (lower + (i : ℚ) * h) else none)).map
        (fun value =>
          if i = 0 ∨ i = numSteps then sum + value
          else if i % 2 = 1 then sum + 4 * value
          else sum + 2 * value))
    0

/-- Mirror of `numericalIntegrateFraction(fraction, lower, upper, indvar,
numSteps = 1000)`: composite Simpson's rule, returning `(h/3)·sum` wrapped as
a constant-term fraction over the scalar denominator 1. -/
def numericalIntegrateFraction (f : Fraction) (lower upper : ℚ) (v : String)
    (numSteps : ℕ := 1000) : Except Err Fraction :=
  let steps := if numSteps % 2 ≠ 0 then numSteps + 1 else numSteps
  let h := (upper - lower) / (steps : ℚ)
  (simpsonLoop f lower h v steps).map
    (fun sum => ⟨⟨[createTerm ((h / 3) * sum)]⟩, .scalar 1⟩)

/-! Specification-side notions used to state the claims. -/

/-- The normalization invariant of the data model: no variable appears in the
exponent mapping with exponent 0. -/
def TermInv (t : Term) : Prop := ∀ ve ∈ t.var.getD [], ve.2 ≠ 0

/-- Strictly positive exponents: the data-model well-formedness (non-negative
exponents) combined with the normalization invariant. -/
def PosExp (t : Term) : Prop := ∀ ve ∈ t.var.getD [], 0 < ve.2

/-- Well-formed term as produced by the JS representation: its exponent
mapping has no duplicate variable and only non-negative exponents. -/
def TermWF (t : Term) : Prop :=
  (t.var.getD []).Pairwise (fun a b => a.1 ≠ b.1) ∧ ∀ ve ∈ t.var.getD [], 0 ≤ ve.2

/-- Well-formed polynomial: all terms well-formed. -/
def PolyWF (p : Polynomial) : Prop := ∀ t ∈ p.terms, TermWF t

/-- Value of a variable→exponent mapping under a total assignment. -/
def varsVal (l : VarMap) (ρ : String → ℚ) : ℚ :=
  (l.map (fun ve => ρ ve.1 ^ (ve.2 : ℤ))).prod

/-- Exact value of a term under a total assignment. -/
def termVal (t : Term) (ρ : String → ℚ) : ℚ := t.coeff * varsVal (t.var.getD []) ρ

/-- Exact value of a polynomial under a total assignment. -/
def polyVal (p : Polynomial) (ρ : String → ℚ) : ℚ :=
  (p.terms.map (fun t => termVal t ρ)).sum

/-- Totalization of a binding context (unbound variables read as 0; only used
together with a hypothesis that every needed variable is bound). -/
def totalize (b : String → Option ℚ) : String → ℚ := fun v => (b v).getD 0

/-- All variables of a term are bound. -/
def termBound (t : Term) (b : String → Option ℚ) : Prop :=
  ∀ ve ∈ t.var.getD [], (b ve.1).isSome

/-- Simpson weight of sample index `i` out of `steps`: 1 at the endpoints,
4 at odd indices, 2 at even interior indices. -/
def simpsonWeight (steps i : ℕ) : ℚ :=
  if i = 0 ∨ i = steps then 1 else if i % 2 = 1 then 4 else 2

/-- Binding of the single variable `v` to the value `x`. -/
def singleBinding (v : String) (x : ℚ) : String → Option ℚ :=
  fun w => if w = v then some x else none

/-! Concrete example inputs referenced by the claims. -/

/-- The term `x`. -/
def xTerm : Term := createTerm 1 [("x", 1)]

/-- The fraction `x/x`. -/
def exFracXX : Fraction := ⟨⟨[xTerm]⟩, .poly ⟨[xTerm]⟩⟩

/-- The fraction `x/(x-2)`. -/
def exFracXdivXm2 : Fraction := ⟨⟨[xTerm]⟩, .poly ⟨[xTerm, createTerm (-2)]⟩⟩

/-- The fraction `(x+1)/1`. -/
def exFracXp1 : Fraction := ⟨⟨[xTerm, createTerm 1]⟩, .scalar 1⟩

/-- The fraction `(x-1)/1`. -/
def exFracXm1 : Fraction := ⟨⟨[xTerm, createTerm (-1)]⟩, .scalar 1⟩

/-- The fraction `x/2` (scalar denominator different from 1). -/
def exFracXdiv2 : Fraction := ⟨⟨[xTerm]⟩, .scalar 2⟩

/-- The fraction `1/1`. -/
def exFracOne : Fraction := ⟨⟨[createTerm 1]⟩, .scalar 1⟩

/-- The fraction `(6x²+9x)/3`. -/
def exFracGcd : Fraction :=
  ⟨⟨[createTerm 6 [("x", 2)], createTerm 9 [("x", 1)]]⟩, .scalar 3⟩

/-- The fraction `0/3` (zero numerator over the scalar 3). -/
def exFracZeroDiv3 : Fraction := ⟨⟨[createTerm 0]⟩, .scalar 3⟩

/-! Lemmas about the JS-object operations. -/

theorem objGet_objSet_self (l : VarMap) (v : String) (e : ℤ) :
    objGet (objSet l v e) v = some e := by
  induction l with
  | nil => simp [objSet, objGet]
  | cons kv rest ih =>
    obtain ⟨k, e0⟩ := kv
    by_cases h : k = v
    · simp [objSet, objGet, h]
    · simp [objSet, objGet, h, ih]

theorem objGet_objSet_ne (l : VarMap) (v w : String) (e : ℤ) (hwv : w ≠ v) :
    objGet (objSet l v e) w = objGet l w := by
  induction l with
  | nil => simp [objSet, objGet, if_neg (Ne.symm hwv)]
  | cons kv rest ih =>
    obtain ⟨k, e0⟩ := kv
    by_cases h : k = v
    · subst h
      simp [objSet, objGet, if_neg (Ne.symm hwv)]
    · simp only [objSet, if_neg h, objGet]
      by_cases hk : k = w <;> simp [hk, ih]

theorem objGet_mem (l : VarMap) (v : String) (e : ℤ) (h : objGet l v = some e) :
    (v, e) ∈ l := by
  induction l with
  | nil => simp [objGet] at h
  | cons kv rest ih =>
    obtain ⟨k, e0⟩ := kv
    simp only [objGet] at h
    by_cases hk : k = v
    · rw [if_pos hk] at h
      obtain rfl : e0 = e := Option.some.inj h
      subst hk
      exact List.mem_cons_self _ _
    · rw [if_neg hk] at h
      exact List.mem_cons_of_mem _ (ih h)

theorem mem_objSet (l : VarMap) (v : String) (e : ℤ) (p : String × ℤ)
    (h : p ∈ objSet l v e) : p ∈ l ∨ p = (v, e) := by
  induction l with
  | nil => simpa [objSet] using h
  | cons kv rest ih =>
    obtain ⟨k, e0⟩ := kv
    simp only [objSet] at h
    by_cases hk : k = v
    · rw [if_pos hk] at h
      rcases List.mem_cons.mp h with h | h
      · exact Or.inr (by simpa [hk] using h)
      · exact Or.inl (List.mem_cons_of_mem _ h)
    · rw [if_neg hk] at h
      rcases List.mem_cons.mp h with h | h
      · exact Or.inl (by simp [h])
      · rcases ih h with h' | h'
        · exact Or.inl (List.mem_cons_of_mem _ h')
        · exact Or.inr h'

theorem mem_objRemove (l : VarMap) (v : String) (p : String × ℤ)
    (h : p ∈ objRemove l v) : p ∈ l := by
  induction l with
  | nil => simp [objRemove] at h
  | cons kv rest ih =>
    obtain ⟨k, e0⟩ := kv
    simp only [objRemove] at h
    by_cases hk : k = v
    · rw [if_pos hk] at h
      exact List.mem_cons_of_mem _ h
    · rw [if_neg hk] at h
      rcases List.mem_cons.mp h with h | h
      · rw [h]
        exact List.mem_cons_self _ _
      · exact List.mem_cons_of_mem _ (ih h)

theorem objSet_append (l : VarMap) (v : String) (e : ℤ)
    (h : ∀ p ∈ l, p.1 ≠ v) : objSet l v e = l ++ [(v, e)] := by
  induction l with
  | nil => simp [objSet]
  | cons kv rest ih =>
    obtain ⟨k, e0⟩ := kv
    have hk : k ≠ v := h (k, e0) (List.mem_cons_self _ _)
    simp only [objSet, if_neg hk, List.cons_append, List.cons.injEq, true_and]
    exact ih (fun p hp => h p (List.mem_cons_of_mem _ hp))

/-! Claim C1: differentiateFraction with a polynomial denominator. -/

/-- Claim C1 counterexample: for the fraction `x/x`, the quotient-rule
numerator produced by `differentiateFraction` is the unsimplified two-term
list `x, -x`, not its `simplifyPolynomial` image (which is empty). -/
theorem C1_quotient_rule_counterexample :
    (differentiateFraction exFracXX "x").numi ≠
      simplifyPolynomial (subtractPolynomials
        (multiplyPolynomials (differentiatePolynomial ⟨[xTerm]⟩ "x") ⟨[xTerm]⟩)
        (multiplyPolynomials ⟨[xTerm]⟩ (differentiatePolynomial ⟨[xTerm]⟩ "x"))) := by
  norm_num [differentiateFraction, exFracXX, differentiatePolynomial,
    differentiateTerm, multiplyPolynomials, multiplyTerms, subtractPolynomials,
    addPolynomials, simplifyPolynomial, groupTerms, addToGroup, xTerm, createTerm,
    objGet, objSet, objRemove, eps, List.insertionSort, List.orderedInsert,
    List.filter]
  exact List.cons_ne_nil _ _

/-- Claim C1 (amended): for every fraction with polynomial denominator `g`
and numerator `f`, `differentiateFraction` returns the quotient rule with the
numerator `subtractPolynomials(multiplyPolynomials(f',g),
multiplyPolynomials(f,g'))` left unsimplified (no `simplifyPolynomial` is
applied), and the denominator `multiplyPolynomials(g,g)`. -/
theorem C1_quotient_rule_amended (f g : Polynomial) (v : String) :
    differentiateFraction ⟨f, .poly g⟩ v =
      ⟨subtractPolynomials
        (multiplyPolynomials (differentiatePolynomial f v) g)
        (multiplyPolynomials f (differentiatePolynomial g v)),
       .poly (multiplyPolynomials g g)⟩ := rfl

/-! Claim C2: evaluateFraction at a zero denominator. -/

/-- Claim C2 (code evaluated at the failing input): evaluating `x/(x-2)` at
the binding `x = 2` does not fail: the source performs an unchecked division
and returns its result (JS produces `Infinity`; in the exact model the
unchecked `2/0` is `0`).  No `DivisionByZero` error exists on this code
path. -/
theorem C2_div_by_zero_returns_value :
    evaluateFraction exFracXdivXm2 (singleBinding "x" 2) = .ok 0 := by
  norm_num [evaluateFraction, exFracXdivXm2, evaluatePolynomial, evaluateTerm,
    singleBinding, xTerm, createTerm, List.foldlM, Except.map, Bind.bind,
    Pure.pure, Except.instMonad, Except.bind, Except.pure]

/-! Claim C3: expandFractions and denominators. -/

/-- Claim C3 counterexample: for `x/2` (a scalar denominator different
from 1) paired with `1/1`, `expandFractions` does not fail with
`UnsupportedExpansion`: it returns the ordinary fraction `x/2`. -/
theorem C3_expandFractions_counterexample :
    expandFractions exFracXdiv2 exFracOne = ⟨⟨[xTerm]⟩, .scalar 2⟩ := by
  norm_num [expandFractions, exFracXdiv2, exFracOne, expandDeno,
    multiplyPolynomials, multiplyTerms, simplifyFraction, simplifyPolynomial,
    groupTerms, addToGroup, xTerm, createTerm, objSet, objGet, eps,
    List.insertionSort, List.orderedInsert, jsGcd, gcdLoop, ratMod, ratTrunc,
    List.filter]

/-- Claim C3 (amended): `expandFractions` accepts every pair of
denominators and never fails: it returns the `simplifyFraction` of the
fraction whose numerator is the Cartesian cross-product of the two
numerators via `multiplyPolynomials` and whose denominator combines the two
denominators by their shapes (scalar·scalar, constant-scaled polynomial, or
polynomial product).  In particular `expandFractions((x+1), (x-1))` yields
exactly the two terms `x²` and `-1` over the scalar denominator 1. -/
theorem C3_expandFractions_amended :
    (∀ f1 f2 : Fraction,
      expandFractions f1 f2 =
        simplifyFraction
          ⟨multiplyPolynomials f1.numi f2.numi, expandDeno f1.deno f2.deno⟩) ∧
    expandFractions exFracXp1 exFracXm1 =
      ⟨⟨[createTerm 1 [("x", 2)], createTerm (-1)]⟩, .scalar 1⟩ :=
  ⟨fun _ _ => rfl, by
    norm_num [expandFractions, exFracXp1, exFracXm1, expandDeno,
      multiplyPolynomials, multiplyTerms, simplifyFraction, simplifyPolynomial,
      groupTerms, addToGroup, xTerm, createTerm, objSet, objGet, eps,
      List.insertionSort, List.orderedInsert, jsGcd, gcdLoop, ratMod, ratTrunc,
      List.filter, degGE, totalDegree]⟩

/-! Claim C9: simplifyFraction on a vanishing numerator. -/

/-- Claim C9: for a fraction with scalar denominator whose numerator
simplifies to the empty term list, `simplifyFraction` returns the empty
numerator with the original scalar denominator unchanged (no GCD reduction
is attempted). -/
theorem C9_zero_numerator_keeps_denominator (f : Fraction) (d : ℚ)
    (hd : f.deno = .scalar d) (h : (simplifyPolynomial f.numi).terms = []) :
    simplifyFraction f = ⟨⟨[]⟩, .scalar d⟩ := by
  have hsn : simplifyPolynomial f.numi = ⟨[]⟩ := by
    have : simplifyPolynomial f.numi = ⟨(simplifyPolynomial f.numi).terms⟩ := rfl
    rw [this, h]
  simp [simplifyFraction, hd, hsn]

/-- Claim C9 witness: `0/3` simplifies to the empty numerator over the
unchanged scalar denominator 3. -/
theorem C9_zero_numerator_keeps_denominator_witness :
    simplifyFraction exFracZeroDiv3 = ⟨⟨[]⟩, .scalar 3⟩ :=
  C9_zero_numerator_keeps_denominator exFracZeroDiv3 3 rfl (by
    norm_num [simplifyPolynomial, exFracZeroDiv3, groupTerms, addToGroup,
      createTerm, eps, List.insertionSort, List.filter])

/-! Claim C6: integrateTerm (power rule). -/

/-- Claim C6: with `n` the current exponent of `v` in the term (0 if absent),
`integrateTerm` fails with `LogarithmicIntegral` exactly when `n = -1`, and
otherwise returns a term with coefficient `coefficient/(n+1)` whose mapping
sends `v` to `n+1` (inserted if absent) and leaves every other variable
unchanged. -/
theorem C6_integrateTerm_power_rule (t : Term) (v : String) (n : ℤ)
    (hn : (objGet (t.var.getD []) v).getD 0 = n) :
    (n = -1 → integrateTerm t v = .error .LogarithmicIntegral) ∧
    (n ≠ -1 → ∃ t', integrateTerm t v = .ok t' ∧
      t'.coeff = t.coeff / ((n + 1 : ℤ) : ℚ) ∧
      objGet (t'.var.getD []) v = some (n + 1) ∧
      ∀ w, w ≠ v → objGet (t'.var.getD []) w = objGet (t.var.getD []) w) := by
  constructor
  · intro h
    simp only [integrateTerm, hn, h, if_pos]
  · intro h
    refine ⟨⟨t.coeff / ((n + 1 : ℤ) : ℚ), some (objSet (t.var.getD []) v (n + 1))⟩,
      ?_, rfl, ?_, ?_⟩
    · simp only [integrateTerm, hn, if_neg h]
    · simpa using objGet_objSet_self (t.var.getD []) v (n + 1)
    · intro w hw
      simpa using objGet_objSet_ne (t.var.getD []) v w (n + 1) hw

/-- Claim C6 witness: `∫ x^(-1)` fails with `LogarithmicIntegral`, while
`∫ 2x dx` gives coefficient `2/(1+1)` and exponent `1+1` on `x`. -/
theorem C6_integrateTerm_power_rule_witness :
    (integrateTerm (createTerm 1 [("x", -1)]) "x" = .error .LogarithmicIntegral) ∧
    (∃ t', integrateTerm (createTerm 2 [("x", 1)]) "x" = .ok t' ∧
      t'.coeff = (createTerm 2 [("x", 1)]).coeff / (((1 : ℤ) + 1 : ℤ) : ℚ) ∧
      objGet (t'.var.getD []) "x" = some ((1 : ℤ) + 1) ∧
      ∀ w, w ≠ "x" →
        objGet (t'.var.getD []) w =
          objGet ((createTerm 2 [("x", 1)]).var.getD []) w) :=
  ⟨(C6_integrateTerm_power_rule (createTerm 1 [("x", -1)]) "x" (-1)
      (by simp [createTerm, objGet])).1 rfl,
   (C6_integrateTerm_power_rule (createTerm 2 [("x", 1)]) "x" 1
      (by simp [createTerm, objGet])).2 (by decide)⟩

/-! Claim C4: the exponent-normalization invariant. -/

theorem objSet_pred {P : ℤ → Prop} (l : VarMap) (v : String) (e : ℤ)
    (hl : ∀ p ∈ l, P p.2) (he : P e) : ∀ p ∈ objSet l v e, P p.2 := by
  intro p hp
  rcases mem_objSet l v e p hp with h | h
  · exact hl p h
  · rw [h]
    exact he

theorem foldl_objSet_pred {P : ℤ → Prop} (l : List (String × ℤ)) :
    ∀ acc : VarMap, (∀ p ∈ acc, P p.2) → (∀ ve ∈ l, P ve.2) →
      ∀ p ∈ l.foldl (fun acc ve => objSet acc ve.1 ve.2) acc, P p.2 := by
  induction l with
  | nil => intro acc hacc _ p hp; exact hacc p hp
  | cons ve l ih =>
    intro acc hacc hl p hp
    refine ih _ (objSet_pred acc ve.1 ve.2 hacc (hl ve (List.mem_cons_self _ _)))
      (fun x hx => hl x (List.mem_cons_of_mem _ hx)) p ?_
    simpa using hp

theorem foldl_objMergeAdd_pred {P : ℤ → Prop}
    (hadd : ∀ a b, P a → P b → P (a + b)) (hzero : ∀ b, P b → P (0 + b))
    (l : List (String × ℤ)) :
    ∀ acc : VarMap, (∀ p ∈ acc, P p.2) → (∀ ve ∈ l, P ve.2) →
      ∀ p ∈ l.foldl
        (fun acc ve => objSet acc ve.1 ((objGet acc ve.1).getD 0 + ve.2)) acc,
        P p.2 := by
  induction l with
  | nil => intro acc hacc _ p hp; exact hacc p hp
  | cons ve l ih =>
    intro acc hacc hl p hp
    have hval : P ((objGet acc ve.1).getD 0 + ve.2) := by
      cases hg : objGet acc ve.1 with
      | none => simpa [hg] using hzero ve.2 (hl ve (List.mem_cons_self _ _))
      | some e0 =>
        have he0 : P e0 := hacc (ve.1, e0) (objGet_mem acc ve.1 e0 hg)
        simpa [hg] using hadd e0 ve.2 he0 (hl ve (List.mem_cons_self _ _))
    refine ih _ (objSet_pred acc ve.1 _ hacc hval)
      (fun x hx => hl x (List.mem_cons_of_mem _ hx)) p ?_
    simpa using hp

/-- The variable mapping of a `multiplyTerms` result, as a list: `term1`'s
entries copied and `term2`'s exponents added on. -/
theorem multiplyTerms_varList (t1 t2 : Term) :
    (multiplyTerms t1 t2).var.getD [] =
      (t2.var.getD []).foldl
        (fun acc ve => objSet acc ve.1 ((objGet acc ve.1).getD 0 + ve.2))
        ((t1.var.getD []).foldl (fun acc ve => objSet acc ve.1 ve.2) []) := by
  simp only [multiplyTerms]
  split
  · rename_i h
    simp [h]
  · simp

/-- The coefficient of a `multiplyTerms` result. -/
theorem multiplyTerms_coeff (t1 t2 : Term) :
    (multiplyTerms t1 t2).coeff = t1.coeff * t2.coeff := by
  simp only [multiplyTerms]
  split <;> rfl

theorem createTerm_posExp (c : ℚ) (vars : VarMap) (h : ∀ p ∈ vars, 0 < p.2) :
    PosExp (createTerm c vars) := by
  unfold createTerm PosExp
  split
  · simp
  · simpa using h

theorem multiplyTerms_posExp (t1 t2 : Term) (h1 : PosExp t1) (h2 : PosExp t2) :
    PosExp (multiplyTerms t1 t2) := by
  intro ve hve
  rw [multiplyTerms_varList] at hve
  refine foldl_objMergeAdd_pred (P := fun e => 0 < e)
    (fun a b ha hb => by omega) (fun b hb => by omega)
    (t2.var.getD []) _ ?_ h2 ve hve
  exact foldl_objSet_pred (t1.var.getD []) [] (by simp) h1

theorem differentiateTerm_posExp (t : Term) (v : String) (h : PosExp t) :
    PosExp (differentiateTerm t v) := by
  intro ve hve
  unfold differentiateTerm at hve
  cases ht : t.var with
  | none => simp [ht, createTerm] at hve
  | some l =>
    simp only [ht] at hve
    have hl : ∀ p ∈ l, 0 < p.2 := by
      intro p hp
      exact h p (by simpa [ht] using hp)
    cases hg : objGet l v with
    | none => simp [hg, createTerm] at hve
    | some pw =>
      simp only [hg] at hve
      have hpw : 0 < pw := hl (v, pw) (objGet_mem l v pw hg)
      by_cases h1 : pw = 1
      · simp only [if_pos h1] at hve
        by_cases h0 : objRemove l v = []
        · simp [h0] at hve
        · simp only [if_neg h0, Option.getD_some] at hve
          exact hl ve (mem_objRemove l v ve (by simpa using hve))
      · simp only [if_neg h1, Option.getD_some] at hve
        rcases mem_objSet l v (pw - 1) ve (by simpa using hve) with h' | h'
        · exact hl ve h'
        · rw [h']
          omega

theorem integrateTerm_posExp (t : Term) (v : String) (t' : Term)
    (h : PosExp t) (hok : integrateTerm t v = .ok t') : PosExp t' := by
  unfold integrateTerm at hok
  by_cases hn : (objGet (t.var.getD []) v).getD 0 = -1
  · simp [hn] at hok
  · rw [if_neg hn] at hok
    obtain rfl := (Except.ok.inj hok).symm
    intro ve hve
    have hpos : 0 < (objGet (t.var.getD []) v).getD 0 + 1 := by
      cases hg : objGet (t.var.getD []) v with
      | none => simp
      | some e0 =>
        have : 0 < e0 := h (v, e0) (objGet_mem _ v e0 hg)
        simp [hg]
        omega
    rcases mem_objSet (t.var.getD []) v _ ve (by simpa using hve) with h' | h'
    · exact h ve h'
    · rw [h']
      exact hpos

theorem mem_addToGroup_var (acc : List Term) (t x : Term)
    (h : x ∈ addToGroup acc t) : (∃ g ∈ acc, x.var = g.var) ∨ x.var = t.var := by
  induction acc with
  | nil =>
    simp only [addToGroup, List.mem_singleton] at h
    exact Or.inr (by rw [h])
  | cons g gs ih =>
    simp only [addToGroup] at h
    by_cases hg : g.var = t.var
    · rw [if_pos hg] at h
      rcases List.mem_cons.mp h with h | h
      · exact Or.inl ⟨g, List.mem_cons_self _ _, by rw [h]⟩
      · exact Or.inl ⟨x, List.mem_cons_of_mem _ h, rfl⟩
    · rw [if_neg hg] at h
      rcases List.mem_cons.mp h with h | h
      · exact Or.inl ⟨g, List.mem_cons_self _ _, by rw [h]⟩
      · rcases ih h with ⟨g', hg', hx⟩ | hx
        · exact Or.inl ⟨g', List.mem_cons_of_mem _ hg', hx⟩
        · exact Or.inr hx

theorem mem_foldl_addToGroup_var (ts : List Term) :
    ∀ (acc : List Term) (x : Term), x ∈ ts.foldl addToGroup acc →
      (∃ g ∈ acc, x.var = g.var) ∨ ∃ t ∈ ts, x.var = t.var := by
  induction ts with
  | nil =>
    intro acc x hx
    exact Or.inl ⟨x, hx, rfl⟩
  | cons t ts ih =>
    intro acc x hx
    rcases ih (addToGroup acc t) x (by simpa using hx) with ⟨g, hg, hxg⟩ | ⟨u, hu, hxu⟩
    · rcases mem_addToGroup_var acc t g hg with ⟨g', hg', hgg⟩ | hgt
      · exact Or.inl ⟨g', hg', hxg.trans hgg⟩
      · exact Or.inr ⟨t, List.mem_cons_self _ _, hxg.trans hgt⟩
    · exact Or.inr ⟨u, List.mem_cons_of_mem _ hu, hxu⟩

theorem simplifyPolynomial_var_origin (p : Polynomial) (x : Term)
    (hx : x ∈ (simplifyPolynomial p).terms) : ∃ t ∈ p.terms, x.var = t.var := by
  simp only [simplifyPolynomial] at hx
  have hx1 := (List.mem_insertionSort degGE).mp hx
  have hx2 := List.mem_of_mem_filter hx1
  rcases mem_foldl_addToGroup_var p.terms [] x hx2 with ⟨g, hg, _⟩ | h
  · simp at hg
  · exact h

/-- Claim C4 counterexample: `createTerm` performs no normalization, so
constructing a term with an explicit zero exponent yields a term that
violates the invariant. -/
theorem C4_normalization_counterexample :
    ¬ TermInv (createTerm 1 [("x", 0)]) := by
  intro h
  exact h ("x", 0) (by simp [createTerm]) rfl

/-- Claim C4 (amended): the operations preserve the normalization invariant
on well-formed inputs.  `createTerm` yields an invariant-satisfying term when
the supplied mapping has no zero exponent (it copies the mapping verbatim);
`multiplyTerms`, `differentiateTerm` and the successful case of
`integrateTerm` preserve positivity of all exponents (the data-model
well-formedness); every term produced by `simplifyPolynomial` inherits its
variable signature from some input term, so the invariant is preserved; and
positive exponents entail the invariant. -/
theorem C4_normalization_invariant_amended :
    (∀ (c : ℚ) (vars : VarMap), (∀ p ∈ vars, 0 < p.2) →
      PosExp (createTerm c vars)) ∧
    (∀ t1 t2 : Term, PosExp t1 → PosExp t2 → PosExp (multiplyTerms t1 t2)) ∧
    (∀ (t : Term) (v : String), PosExp t → PosExp (differentiateTerm t v)) ∧
    (∀ (t : Term) (v : String) (t' : Term), PosExp t →
      integrateTerm t v = .ok t' → PosExp t') ∧
    (∀ p : Polynomial, (∀ t ∈ p.terms, TermInv t) →
      ∀ x ∈ (simplifyPolynomial p).terms, TermInv x) ∧
    (∀ t : Term, PosExp t → TermInv t) := by
  refine ⟨createTerm_posExp, multiplyTerms_posExp, differentiateTerm_posExp,
    integrateTerm_posExp, ?_, ?_⟩
  · intro p hp x hx ve hve
    obtain ⟨t, ht, hxt⟩ := simplifyPolynomial_var_origin p x hx
    exact hp t ht ve (by rwa [← hxt])
  · intro t h ve hve
    exact ne_of_gt (h ve hve)

/-- Claim C4 witness: concrete instances of each preservation statement. -/
theorem C4_normalization_invariant_amended_witness :
    PosExp (createTerm 2 [("x", 1)]) ∧
    PosExp (multiplyTerms (createTerm 2 [("x", 1)]) (createTerm 3 [("x", 2)])) ∧
    PosExp (differentiateTerm (createTerm 2 [("x", 2)]) "x") ∧
    TermInv (createTerm 2 [("x", 1)]) := by
  have h := C4_normalization_invariant_amended
  have h1 : PosExp (createTerm 2 [("x", 1)]) :=
    h.1 2 [("x", 1)] (by simp)
  have h2 : PosExp (createTerm 3 [("x", 2)]) :=
    h.1 3 [("x", 2)] (by simp)
  have h3 : PosExp (createTerm 2 [("x", 2)]) :=
    h.1 2 [("x", 2)] (by simp)
  exact ⟨h1, h.2.1 _ _ h1 h2, h.2.2.1 _ "x" h3, h.2.2.2.2.2 _ h1⟩

/-! Claim C5: idempotence of simplifyPolynomial. -/

theorem addToGroup_keys (acc : List Term) (t : Term)
    (h : List.Pairwise (fun a b : Term => a.var ≠ b.var) acc) :
    List.Pairwise (fun a b : Term => a.var ≠ b.var) (addToGroup acc t) := by
  induction acc with
  | nil => simp [addToGroup]
  | cons g gs ih =>
    obtain ⟨hg, hgs⟩ := List.pairwise_cons.mp h
    simp only [addToGroup]
    by_cases hv : g.var = t.var
    · rw [if_pos hv]
      exact List.pairwise_cons.mpr ⟨fun b hb => hg b hb, hgs⟩
    · rw [if_neg hv]
      refine List.pairwise_cons.mpr ⟨?_, ih hgs⟩
      intro b hb
      rcases mem_addToGroup_var gs t b hb with ⟨g', hg', hb'⟩ | hb'
      · rw [hb']
        exact hg g' hg'
      · rw [hb']
        exact hv

theorem foldl_addToGroup_keys (ts : List Term) :
    ∀ acc : List Term, List.Pairwise (fun a b : Term => a.var ≠ b.var) acc →
      List.Pairwise (fun a b : Term => a.var ≠ b.var) (ts.foldl addToGroup acc) := by
  induction ts with
  | nil => intro acc h; exact h
  | cons t ts ih => intro acc h; exact ih _ (addToGroup_keys acc t h)

theorem groupTerms_keys (ts : List Term) :
    List.Pairwise (fun a b : Term => a.var ≠ b.var) (groupTerms ts) :=
  foldl_addToGroup_keys ts [] List.Pairwise.nil

theorem addToGroup_append (acc : List Term) (t : Term)
    (h : ∀ g ∈ acc, g.var ≠ t.var) : addToGroup acc t = acc ++ [t] := by
  induction acc with
  | nil => simp [addToGroup]
  | cons g gs ih =>
    simp only [addToGroup, if_neg (h g (List.mem_cons_self _ _)), List.cons_append,
      List.cons.injEq, true_and]
    exact ih (fun g' hg' => h g' (List.mem_cons_of_mem _ hg'))

theorem foldl_addToGroup_disjoint (ts : List Term) :
    ∀ acc : List Term, List.Pairwise (fun a b : Term => a.var ≠ b.var) (acc ++ ts) →
      ts.foldl addToGroup acc = acc ++ ts := by
  induction ts with
  | nil => intro acc _; simp
  | cons t ts ih =>
    intro acc h
    have hsep : ∀ g ∈ acc, g.var ≠ t.var := by
      intro g hg
      exact (List.pairwise_append.mp h).2.2 g hg t (List.mem_cons_self _ _)
    have hstep : addToGroup acc t = acc ++ [t] := addToGroup_append acc t hsep
    have hassoc : (acc ++ [t]) ++ ts = acc ++ t :: ts := by simp
    calc (t :: ts).foldl addToGroup acc
        = ts.foldl addToGroup (addToGroup acc t) := rfl
      _ = ts.foldl addToGroup (acc ++ [t]) := by rw [hstep]
      _ = (acc ++ [t]) ++ ts := ih (acc ++ [t]) (by rw [hassoc]; exact h)
      _ = acc ++ t :: ts := hassoc

theorem groupTerms_of_distinct_keys (ts : List Term)
    (h : List.Pairwise (fun a b : Term => a.var ≠ b.var) ts) :
    groupTerms ts = ts :=
  foldl_addToGroup_disjoint ts [] (by simpa using h)

/-- Claim C5: simplifyPolynomial is idempotent: simplifying an already
simplified polynomial returns the identical term sequence. -/
theorem C5_simplifyPolynomial_idempotent (p : Polynomial) :
    simplifyPolynomial (simplifyPolynomial p) = simplifyPolynomial p := by
  have hperm := List.perm_insertionSort degGE
    ((groupTerms p.terms).filter (fun t => decide (eps < |t.coeff|)))
  have hkeys : List.Pairwise (fun a b : Term => a.var ≠ b.var)
      (simplifyPolynomial p).terms := by
    refine (hperm.pairwise_iff (fun h => (h ·.symm))).mpr ?_
    exact List.Pairwise.sublist (List.filter_sublist _) (groupTerms_keys p.terms)
  have hfil : ∀ t ∈ (simplifyPolynomial p).terms, decide (eps < |t.coeff|) = true := by
    intro t ht
    exact (List.mem_filter.mp (hperm.mem_iff.mp ht)).2
  have hsorted : List.Sorted degGE (simplifyPolynomial p).terms :=
    List.sorted_insertionSort degGE _
  show Polynomial.mk (List.insertionSort degGE
    (((simplifyPolynomial p).terms.foldl addToGroup []).filter
      (fun t => decide (eps < |t.coeff|)))) = simplifyPolynomial p
  rw [show (simplifyPolynomial p).terms.foldl addToGroup []
        = groupTerms (simplifyPolynomial p).terms from rfl,
    groupTerms_of_distinct_keys _ hkeys, List.filter_eq_self.mpr hfil,
    hsorted.insertionSort_eq]

/-! Claim C7: GCD reduction of simplifyFraction. -/

theorem ratMod_natCast (a b : ℕ) (hb : b ≠ 0) :
    ratMod (a : ℚ) (b : ℚ) = ((a % b : ℕ) : ℚ) := by
  have hb0 : (0:ℚ) < (b:ℚ) := by exact_mod_cast Nat.pos_of_ne_zero hb
  have hnn : (0:ℚ) ≤ (a:ℚ) / (b:ℚ) := div_nonneg (by positivity) hb0.le
  have hcast : (a:ℚ) = ((a % b : ℕ) : ℚ) + (b:ℚ) * ((a / b : ℕ) : ℚ) := by
    exact_mod_cast (Nat.mod_add_div a b).symm
  have hsplit : (a:ℚ) / (b:ℚ) = ((a % b : ℕ) : ℚ) / (b:ℚ) + ((a / b : ℕ) : ℚ) := by
    rw [hcast, add_div, mul_div_cancel_left₀ _ (ne_of_gt hb0)]
  have hfloor : ⌊(a:ℚ) / (b:ℚ)⌋ = ((a / b : ℕ) : ℤ) := by
    rw [hsplit, Int.floor_add_nat]
    have h01 : ⌊((a % b : ℕ) : ℚ) / (b:ℚ)⌋ = 0 := by
      apply Int.floor_eq_zero_iff.mpr
      rw [Set.mem_Ico]
      refine ⟨by positivity, ?_⟩
      rw [div_lt_one hb0]
      exact_mod_cast Nat.mod_lt a (Nat.pos_of_ne_zero hb)
    rw [h01, zero_add]
  unfold ratMod ratTrunc
  rw [if_neg (not_lt.mpr hnn), hfloor, Int.cast_natCast]
  linarith [hcast]

theorem gcdLoop_nat (fuel : ℕ) :
    ∀ a b : ℕ, b < fuel → gcdLoop fuel (a:ℚ) (b:ℚ) = (Nat.gcd a b : ℚ) := by
  induction fuel with
  | zero => intro a b h; exact absurd h (Nat.not_lt_zero b)
  | succ f ih =>
    intro a b h
    unfold gcdLoop
    by_cases hb : b = 0
    · subst hb
      simp
    · have hbq : (b:ℚ) ≠ 0 := Nat.cast_ne_zero.mpr hb
      rw [if_neg hbq, ratMod_natCast a b hb,
        ih b (a % b)
          (lt_of_lt_of_le (Nat.mod_lt a (Nat.pos_of_ne_zero hb)) (Nat.lt_succ_iff.mp h))]
      congr 1
      rw [Nat.gcd_comm b (a % b), ← Nat.gcd_rec b a, Nat.gcd_comm b a]

/-- The while-loop `gcd` of the source, on integer inputs, computes the
Euclidean GCD of the absolute values, returning 1 when that GCD is 0. -/
theorem jsGcd_intCast (a b : ℤ) :
    jsGcd (a : ℚ) (b : ℚ) =
      if Int.gcd a b = 0 then 1 else (Int.gcd a b : ℚ) := by
  have ha : |(a:ℚ)| = ((a.natAbs : ℕ) : ℚ) := by rw [Int.cast_natAbs, Int.cast_abs]
  have hb : |(b:ℚ)| = ((b.natAbs : ℕ) : ℚ) := by rw [Int.cast_natAbs, Int.cast_abs]
  simp only [jsGcd, ha, hb]
  have hfuel : (((b.natAbs : ℕ) : ℚ) *
      ((((a.natAbs : ℕ) : ℚ).den * ((b.natAbs : ℕ) : ℚ).den : ℕ) : ℚ)).num.natAbs
      = b.natAbs := by
    simp [Rat.den_natCast, Rat.num_natCast, Int.natAbs_abs]
  rw [hfuel, gcdLoop_nat (b.natAbs + 1) a.natAbs b.natAbs (Nat.lt_succ_self _)]
  rw [show Nat.gcd a.natAbs b.natAbs = Int.gcd a b from rfl]
  by_cases hg : Int.gcd a b = 0
  · simp [hg]
  · rw [if_neg (by exact_mod_cast hg), if_neg hg]

/-- Claim C7: with a scalar denominator and a non-empty simplified numerator
`c :: rest`, `simplifyFraction` computes `g = gcd(reduce(gcd, coefficients),
denominator)` — where `gcd` is the Euclidean algorithm on absolute values
with `gcd(0,0) = 1` (first conjunct) — and divides every coefficient and the
denominator by `g` exactly when `g > 1`. -/
theorem C7_simplifyFraction_gcd (f : Fraction) (d : ℚ) (hd : f.deno = .scalar d)
    (c : Term) (rest : List Term)
    (hterms : (simplifyPolynomial f.numi).terms = c :: rest) :
    (∀ a b : ℤ, jsGcd (a:ℚ) (b:ℚ) =
      if Int.gcd a b = 0 then 1 else (Int.gcd a b : ℚ)) ∧
    (1 < jsGcd ((rest.map Term.coeff).foldl jsGcd c.coeff) d →
      simplifyFraction f =
        ⟨⟨(c :: rest).map (fun t =>
            { t with coeff := t.coeff /
                jsGcd ((rest.map Term.coeff).foldl jsGcd c.coeff) d })⟩,
          .scalar (d / jsGcd ((rest.map Term.coeff).foldl jsGcd c.coeff) d)⟩) ∧
    (¬ 1 < jsGcd ((rest.map Term.coeff).foldl jsGcd c.coeff) d →
      simplifyFraction f = ⟨⟨c :: rest⟩, .scalar d⟩) := by
  have hsn : simplifyPolynomial f.numi = ⟨c :: rest⟩ := by
    rw [show simplifyPolynomial f.numi = ⟨(simplifyPolynomial f.numi).terms⟩ from rfl,
      hterms]
  refine ⟨jsGcd_intCast, ?_, ?_⟩ <;> intro hg <;>
    simp only [simplifyFraction, hd, hsn]
  · rw [if_pos hg]
  · rw [if_neg hg]

/-- Claim C7 witness: `(6x²+9x)/3` simplifies to the numerator terms `2x²`
and `3x` over the scalar denominator 1. -/
theorem C7_simplifyFraction_gcd_witness :
    simplifyFraction exFracGcd =
      ⟨⟨[createTerm 2 [("x", 2)], createTerm 3 [("x", 1)]]⟩, .scalar 1⟩ := by
  have h69 : jsGcd (6:ℚ) (9:ℚ) = 3 := by
    have h := jsGcd_intCast 6 9
    norm_num at h
    exact_mod_cast h
  have h33 : jsGcd (3:ℚ) (3:ℚ) = 3 := by
    have h := jsGcd_intCast 3 3
    norm_num at h
    exact_mod_cast h
  have hterms : (simplifyPolynomial exFracGcd.numi).terms =
      [createTerm 6 [("x", 2)], createTerm 9 [("x", 1)]] := by
    norm_num [simplifyPolynomial, exFracGcd, groupTerms, addToGroup, createTerm,
      eps, List.insertionSort, List.orderedInsert, degGE, totalDegree, List.filter]
  have happ := (C7_simplifyFraction_gcd exFracGcd 3 rfl (createTerm 6 [("x", 2)])
    [createTerm 9 [("x", 1)]] hterms).2.1
  have hgv : jsGcd (([createTerm 9 [("x", 1)]].map Term.coeff).foldl jsGcd
      (createTerm 6 [("x", 2)]).coeff) 3 = 3 := by
    simp [createTerm, h69, h33]
  rw [hgv] at happ
  rw [happ (by norm_num)]
  norm_num [createTerm]

/-! Claim C8: Simpson-rule numerical integration. -/

theorem simpsonLoop_eq_sum (f : Fraction) (lower h : ℚ) (v : String) (steps : ℕ)
    (w : ℕ → ℚ)
    (hw : ∀ i, i ≤ steps →
      evaluateFraction f (singleBinding v (lower + (i:ℚ) * h)) = .ok (w i)) :
    ∀ n, n ≤ steps + 1 →
      (List.range n).foldlM
        (fun (sum : ℚ) (i : ℕ) =>
          (evaluateFraction f
            (fun x => if x = v then some (lower + (i : ℚ) * h) else none)).map
            (fun value =>
              if i = 0 ∨ i = steps then sum + value
              else if i % 2 = 1 then sum + 4 * value
              else sum + 2 * value))
        0 = .ok (∑ i in Finset.range n, simpsonWeight steps i * w i) := by
  intro n
  induction n with
  | zero => intro _; rfl
  | succ m ih =>
    intro hn
    rw [List.range_succ, List.foldlM_append, ih (by omega)]
    have hm : evaluateFraction f
        (fun x => if x = v then some (lower + (m : ℚ) * h) else none) = .ok (w m) :=
      hw m (by omega)
    simp only [List.foldlM_cons, List.foldlM_nil, hm, Except.map,
      Finset.sum_range_succ]
    show Except.ok _ = _
    rw [Except.ok.injEq]
    unfold simpsonWeight
    by_cases h0 : m = 0 ∨ m = steps
    · rw [if_pos h0, if_pos h0]
      ring
    · rw [if_neg h0, if_neg h0]
      by_cases h2 : m % 2 = 1
      · rw [if_pos h2, if_pos h2]
      · rw [if_neg h2, if_neg h2]

/-- Claim C8: `numericalIntegrateFraction` makes the step count even by
incrementing an odd count, sets `h = (upper-lower)/steps`, forms the
Simpson-weighted sum of the fraction evaluated at the single bindings
`{v ↦ lower + i·h}` for `i = 0..steps`, and returns `(h/3)` times that sum
wrapped as a constant-term fraction over the scalar denominator 1. -/
theorem C8_numericalIntegrate_simpson (f : Fraction) (lower upper : ℚ)
    (v : String) (numSteps steps : ℕ) (h : ℚ) (w : ℕ → ℚ)
    (hsteps : steps = if numSteps % 2 ≠ 0 then numSteps + 1 else numSteps)
    (hh : h = (upper - lower) / (steps : ℚ))
    (hw : ∀ i, i ≤ steps →
      evaluateFraction f (singleBinding v (lower + (i:ℚ) * h)) = .ok (w i)) :
    numericalIntegrateFraction f lower upper v numSteps =
      .ok ⟨⟨[createTerm ((h / 3) *
        ∑ i in Finset.range (steps + 1), simpsonWeight steps i * w i)]⟩,
        .scalar 1⟩ := by
  subst hsteps
  subst hh
  simp only [numericalIntegrateFraction, simpsonLoop]
  rw [simpsonLoop_eq_sum f lower _ v _ w hw _ (le_refl _)]
  rfl

/-- Claim C8 witness: integrating `x` over `[0,1]` with the odd step count 3
(made even: 4) returns the exact constant `1/2` over denominator 1. -/
theorem C8_numericalIntegrate_simpson_witness :
    numericalIntegrateFraction ⟨⟨[xTerm]⟩, .scalar 1⟩ 0 1 "x" 3 =
      .ok ⟨⟨[createTerm ((1:ℚ)/2)]⟩, .scalar 1⟩ := by
  have happ := C8_numericalIntegrate_simpson ⟨⟨[xTerm]⟩, .scalar 1⟩ 0 1 "x" 3 4 _
    (fun i => (i:ℚ)/4) (by norm_num) rfl ?_
  · rw [happ]
    norm_num [simpsonWeight, Finset.sum_range_succ, createTerm]
  · intro i hi
    interval_cases i <;>
      norm_num [evaluateFraction, evaluatePolynomial, evaluateTerm, singleBinding,
        xTerm, createTerm, List.foldlM, Except.map, Bind.bind, Pure.pure,
        Except.instMonad, Except.bind, Except.pure]

/-! Claim C10: polynomial multiplication commutes with evaluation. -/

theorem zpow_add_nonneg (q : ℚ) (a b : ℤ) (ha : 0 ≤ a) (hb : 0 ≤ b) :
    q ^ (a + b) = q ^ a * q ^ b := by
  lift a to ℕ using ha
  lift b to ℕ using hb
  rw [← Nat.cast_add, zpow_natCast, zpow_natCast, zpow_natCast, pow_add]

theorem evalTermFold_ok (b : String → Option ℚ) (l : VarMap)
    (hb : ∀ ve ∈ l, (b ve.1).isSome) :
    ∀ acc : ℚ,
      l.foldlM (fun acc ve =>
        match b ve.1 with
        | none => Except.error (Err.MissingVariable ve.1)
        | some x => Except.ok (acc * x ^ (ve.2 : ℤ))) acc
        = .ok (acc * varsVal l (totalize b)) := by
  induction l with
  | nil =>
    intro acc
    show Except.ok acc = _
    simp [varsVal]
  | cons ve l ih =>
    intro acc
    obtain ⟨x, hx⟩ := Option.isSome_iff_exists.mp (hb ve (List.mem_cons_self _ _))
    rw [List.foldlM_cons, hx]
    show l.foldlM _ (acc * x ^ (ve.2 : ℤ)) = _
    rw [ih (fun p hp => hb p (List.mem_cons_of_mem _ hp)) (acc * x ^ (ve.2 : ℤ))]
    have hxv : totalize b ve.1 = x := by simp [totalize, hx]
    simp only [varsVal, List.map_cons, List.prod_cons, hxv]
    rw [← varsVal]
    ring_nf

theorem evaluateTerm_ok_of_bound (t : Term) (b : String → Option ℚ)
    (hb : termBound t b) : evaluateTerm t b = .ok (termVal t (totalize b)) := by
  unfold evaluateTerm termVal
  exact evalTermFold_ok b (t.var.getD []) hb t.coeff

theorem evalTermFold_bound (b : String → Option ℚ) (l : VarMap) :
    ∀ (acc x : ℚ),
      l.foldlM (fun acc ve =>
        match b ve.1 with
        | none => Except.error (Err.MissingVariable ve.1)
        | some x => Except.ok (acc * x ^ (ve.2 : ℤ))) acc = .ok x →
      ∀ ve ∈ l, (b ve.1).isSome := by
  induction l with
  | nil => intro acc x _ ve hve; cases hve
  | cons ve l ih =>
    intro acc x h p hp
    rw [List.foldlM_cons] at h
    cases hx : b ve.1 with
    | none =>
      rw [hx] at h
      simp [Bind.bind, Except.bind] at h
    | some xv =>
      rw [hx] at h
      rcases List.mem_cons.mp hp with hp | hp
      · rw [hp, hx]
        rfl
      · exact ih _ x h p hp

theorem evaluateTerm_bound_of_ok (t : Term) (b : String → Option ℚ) (x : ℚ)
    (hok : evaluateTerm t b = .ok x) : termBound t b :=
  evalTermFold_bound b (t.var.getD []) t.coeff x hok

theorem evalPolyFold_ok (b : String → Option ℚ) (ts : List Term)
    (hb : ∀ t ∈ ts, termBound t b) :
    ∀ acc : ℚ,
      ts.foldlM (fun s t => (evaluateTerm t b).map (s + ·)) acc
        = .ok (acc + (ts.map (fun t => termVal t (totalize b))).sum) := by
  induction ts with
  | nil =>
    intro acc
    show Except.ok acc = _
    simp
  | cons t ts ih =>
    intro acc
    rw [List.foldlM_cons, evaluateTerm_ok_of_bound t b (hb t (List.mem_cons_self _ _))]
    show ts.foldlM _ (acc + termVal t (totalize b)) = _
    rw [ih (fun u hu => hb u (List.mem_cons_of_mem _ hu))]
    simp only [List.map_cons, List.sum_cons]
    rw [Except.ok.injEq]
    ring

theorem evaluatePolynomial_ok_of_bound (p : Polynomial) (b : String → Option ℚ)
    (hb : ∀ t ∈ p.terms, termBound t b) :
    evaluatePolynomial p b = .ok (polyVal p (totalize b)) := by
  unfold evaluatePolynomial polyVal
  rw [evalPolyFold_ok b p.terms hb 0, zero_add]

theorem evalPolyFold_bound (b : String → Option ℚ) (ts : List Term) :
    ∀ (acc x : ℚ),
      ts.foldlM (fun s t => (evaluateTerm t b).map (s + ·)) acc = .ok x →
      ∀ t ∈ ts, termBound t b := by
  induction ts with
  | nil => intro acc x _ t ht; cases ht
  | cons t ts ih =>
    intro acc x h u hu
    rw [List.foldlM_cons] at h
    cases he : evaluateTerm t b with
    | error e =>
      rw [he] at h
      simp [Except.map, Bind.bind, Except.bind] at h
    | ok v =>
      rw [he] at h
      rcases List.mem_cons.mp hu with hu | hu
      · rw [hu]
        exact evaluateTerm_bound_of_ok t b v he
      · exact ih _ x h u hu

theorem evaluatePolynomial_bound_of_ok (p : Polynomial) (b : String → Option ℚ)
    (x : ℚ) (hok : evaluatePolynomial p b = .ok x) : ∀ t ∈ p.terms, termBound t b :=
  evalPolyFold_bound b p.terms 0 x hok

theorem varsVal_objSet_add (ρ : String → ℚ) (l : VarMap) (v : String) (e : ℤ)
    (hl : ∀ p ∈ l, 0 ≤ p.2) (he : 0 ≤ e) :
    varsVal (objSet l v ((objGet l v).getD 0 + e)) ρ = varsVal l ρ * ρ v ^ (e : ℤ) := by
  induction l with
  | nil => simp [objSet, objGet, varsVal]
  | cons kv l ih =>
    obtain ⟨k, e0⟩ := kv
    by_cases hk : k = v
    · simp only [objGet, objSet, if_pos hk]
      have he0 : (0:ℤ) ≤ e0 := hl (k, e0) (List.mem_cons_self _ _)
      simp only [varsVal, List.map_cons, List.prod_cons, Option.getD_some]
      rw [hk, zpow_add_nonneg _ e0 e he0 he]
      ring
    · simp only [objGet, objSet, if_neg hk]
      simp only [varsVal, List.map_cons, List.prod_cons]
      rw [← varsVal, ← varsVal, ih (fun p hp => hl p (List.mem_cons_of_mem _ hp))]
      ring

theorem foldl_objSet_copy (l : VarMap) :
    ∀ acc : VarMap, (∀ p ∈ acc, ∀ q ∈ l, p.1 ≠ q.1) →
      l.Pairwise (fun a b => a.1 ≠ b.1) →
      l.foldl (fun acc ve => objSet acc ve.1 ve.2) acc = acc ++ l := by
  induction l with
  | nil => intro acc _ _; simp
  | cons ve l ih =>
    intro acc hdisj hpair
    obtain ⟨hve, hl⟩ := List.pairwise_cons.mp hpair
    rw [List.foldl_cons,
      objSet_append acc ve.1 ve.2 (fun p hp => hdisj p hp ve (List.mem_cons_self _ _))]
    rw [ih (acc ++ [ve]) ?_ hl]
    · simp
    · intro p hp q hq
      rcases List.mem_append.mp hp with hp | hp
      · exact hdisj p hp q (List.mem_cons_of_mem _ hq)
      · rw [List.mem_singleton.mp hp]
        exact hve q hq

theorem varsVal_foldl_merge (ρ : String → ℚ) (l2 : VarMap) :
    ∀ acc : VarMap, (∀ p ∈ acc, 0 ≤ p.2) → (∀ ve ∈ l2, 0 ≤ ve.2) →
      varsVal (l2.foldl
        (fun acc ve => objSet acc ve.1 ((objGet acc ve.1).getD 0 + ve.2)) acc) ρ
        = varsVal acc ρ * varsVal l2 ρ := by
  induction l2 with
  | nil => intro acc _ _; simp [varsVal]
  | cons ve l2 ih =>
    intro acc hacc hl
    rw [List.foldl_cons]
    rw [ih (objSet acc ve.1 ((objGet acc ve.1).getD 0 + ve.2))
      (objSet_pred acc ve.1 _ hacc ?_)
      (fun p hp => hl p (List.mem_cons_of_mem _ hp))]
    · rw [varsVal_objSet_add ρ acc ve.1 ve.2 hacc (hl ve (List.mem_cons_self _ _))]
      simp only [varsVal, List.map_cons, List.prod_cons]
      rw [← varsVal, ← varsVal]
      ring
    · have hve : (0:ℤ) ≤ ve.2 := hl ve (List.mem_cons_self _ _)
      cases hg : objGet acc ve.1 with
      | none => simpa using hve
      | some e0 =>
        have : (0:ℤ) ≤ e0 := hacc (ve.1, e0) (objGet_mem acc ve.1 e0 hg)
        simp only [Option.getD_some]
        omega

theorem termVal_multiplyTerms (t1 t2 : Term) (ρ : String → ℚ) (h1 : TermWF t1)
    (h2 : ∀ ve ∈ t2.var.getD [], 0 ≤ ve.2) :
    termVal (multiplyTerms t1 t2) ρ = termVal t1 ρ * termVal t2 ρ := by
  unfold termVal
  rw [multiplyTerms_coeff, multiplyTerms_varList]
  rw [varsVal_foldl_merge ρ (t2.var.getD []) _ ?_ h2]
  · rw [foldl_objSet_copy (t1.var.getD []) [] (by simp) h1.1, List.nil_append]
    ring
  · intro p hp
    rw [foldl_objSet_copy (t1.var.getD []) [] (by simp) h1.1, List.nil_append] at hp
    exact h1.2 p hp

theorem mem_foldl_copy_keys (l1 : VarMap) :
    ∀ (acc : VarMap) (p : String × ℤ),
      p ∈ l1.foldl (fun acc ve => objSet acc ve.1 ve.2) acc →
      (∃ q ∈ acc, p.1 = q.1) ∨ ∃ q ∈ l1, p.1 = q.1 := by
  induction l1 with
  | nil => intro acc p hp; exact Or.inl ⟨p, hp, rfl⟩
  | cons ve l1 ih =>
    intro acc p hp
    rcases ih (objSet acc ve.1 ve.2) p (by simpa using hp) with ⟨q, hq, hpq⟩ | ⟨q, hq, hpq⟩
    · rcases mem_objSet acc ve.1 ve.2 q hq with hq' | hq'
      · exact Or.inl ⟨q, hq', hpq⟩
      · refine Or.inr ⟨ve, List.mem_cons_self _ _, ?_⟩
        rw [hpq, hq']
    · exact Or.inr ⟨q, List.mem_cons_of_mem _ hq, hpq⟩

theorem mem_foldl_merge_keys (l2 : VarMap) :
    ∀ (acc : VarMap) (p : String × ℤ),
      p ∈ l2.foldl
        (fun acc ve => objSet acc ve.1 ((objGet acc ve.1).getD 0 + ve.2)) acc →
      (∃ q ∈ acc, p.1 = q.1) ∨ ∃ q ∈ l2, p.1 = q.1 := by
  induction l2 with
  | nil => intro acc p hp; exact Or.inl ⟨p, hp, rfl⟩
  | cons ve l2 ih =>
    intro acc p hp
    rcases ih (objSet acc ve.1 _) p (by simpa using hp) with ⟨q, hq, hpq⟩ | ⟨q, hq, hpq⟩
    · rcases mem_objSet acc ve.1 _ q hq with hq' | hq'
      · exact Or.inl ⟨q, hq', hpq⟩
      · refine Or.inr ⟨ve, List.mem_cons_self _ _, ?_⟩
        rw [hpq, hq']
    · exact Or.inr ⟨q, List.mem_cons_of_mem _ hq, hpq⟩

theorem termBound_multiplyTerms (t1 t2 : Term) (b : String → Option ℚ)
    (h1 : termBound t1 b) (h2 : termBound t2 b) :
    termBound (multiplyTerms t1 t2) b := by
  intro ve hve
  rw [multiplyTerms_varList] at hve
  rcases mem_foldl_merge_keys (t2.var.getD []) _ ve hve with ⟨q, hq, hk⟩ | ⟨q, hq, hk⟩
  · rcases mem_foldl_copy_keys (t1.var.getD []) [] q hq with ⟨r, hr, _⟩ | ⟨r, hr, hqr⟩
    · cases hr
    · rw [hk, hqr]
      exact h1 r hr
  · rw [hk]
    exact h2 q hq

theorem sum_termVal_row (ρ : String → ℚ) (t : Term) (ht : TermWF t)
    (qs : List Term) (hq : ∀ u ∈ qs, ∀ ve ∈ u.var.getD [], 0 ≤ ve.2) :
    ((qs.map (fun t2 => multiplyTerms t t2)).map (fun u => termVal u ρ)).sum
      = termVal t ρ * (qs.map (fun u => termVal u ρ)).sum := by
  induction qs with
  | nil => simp
  | cons u qs ih =>
    simp only [List.map_cons, List.sum_cons]
    rw [termVal_multiplyTerms t u ρ ht (hq u (List.mem_cons_self _ _)),
      ih (fun r hr => hq r (List.mem_cons_of_mem _ hr))]
    ring

theorem sum_termVal_cross (ρ : String → ℚ) (qs : List Term)
    (hq : ∀ u ∈ qs, ∀ ve ∈ u.var.getD [], 0 ≤ ve.2) :
    ∀ ts : List Term, (∀ t ∈ ts, TermWF t) →
      (((ts.map (fun t1 => qs.map (fun t2 => multiplyTerms t1 t2))).flatten).map
        (fun u => termVal u ρ)).sum
        = (ts.map (fun u => termVal u ρ)).sum * (qs.map (fun u => termVal u ρ)).sum := by
  intro ts
  induction ts with
  | nil => intro _; simp
  | cons t ts ih =>
    intro hts
    simp only [List.map_cons, List.flatten_cons, List.map_append, List.sum_append,
      List.sum_cons]
    rw [sum_termVal_row ρ t (hts t (List.mem_cons_self _ _)) qs hq,
      ih (fun u hu => hts u (List.mem_cons_of_mem _ hu))]
    ring

/-- Claim C10: polynomial multiplication commutes with evaluation: whenever
both factors evaluate successfully (every occurring variable is bound), the
product polynomial evaluates to the product of the two values, exactly. -/
theorem C10_multiplyPolynomials_evaluation (p q : Polynomial)
    (b : String → Option ℚ) (x y : ℚ) (hwp : PolyWF p) (hwq : PolyWF q)
    (hp : evaluatePolynomial p b = .ok x) (hq : evaluatePolynomial q b = .ok y) :
    evaluatePolynomial (multiplyPolynomials p q) b = .ok (x * y) := by
  have hbp : ∀ t ∈ p.terms, termBound t b := evaluatePolynomial_bound_of_ok p b x hp
  have hbq : ∀ t ∈ q.terms, termBound t b := evaluatePolynomial_bound_of_ok q b y hq
  have hx : x = polyVal p (totalize b) := by
    rw [evaluatePolynomial_ok_of_bound p b hbp] at hp
    exact (Except.ok.inj hp).symm
  have hy : y = polyVal q (totalize b) := by
    rw [evaluatePolynomial_ok_of_bound q b hbq] at hq
    exact (Except.ok.inj hq).symm
  have hbmul : ∀ t ∈ (multiplyPolynomials p q).terms, termBound t b := by
    intro t ht
    simp only [multiplyPolynomials, List.mem_flatten, List.mem_map] at ht
    obtain ⟨l, ⟨t1, ht1, rfl⟩, htl⟩ := ht
    obtain ⟨t2, ht2, rfl⟩ := List.mem_map.mp htl
    exact termBound_multiplyTerms t1 t2 b (hbp t1 ht1) (hbq t2 ht2)
  rw [evaluatePolynomial_ok_of_bound _ b hbmul, hx, hy, Except.ok.injEq]
  show (((p.terms.map (fun t1 => q.terms.map (fun t2 => multiplyTerms t1 t2))).flatten).map
    (fun u => termVal u (totalize b))).sum = _
  rw [sum_termVal_cross (totalize b) q.terms (fun u hu => (hwq u hu).2) p.terms hwp]
  rfl

/-- Claim C10 witness: `(x+1)(x-1)` evaluated at `x = 3` gives `4 · 2 = 8`. -/
theorem C10_multiplyPolynomials_evaluation_witness :
    evaluatePolynomial
      (multiplyPolynomials ⟨[xTerm, createTerm 1]⟩ ⟨[xTerm, createTerm (-1)]⟩)
      (singleBinding "x" 3) = .ok 8 := by
  have happ := C10_multiplyPolynomials_evaluation ⟨[xTerm, createTerm 1]⟩
    ⟨[xTerm, createTerm (-1)]⟩ (singleBinding "x" 3) 4 2
    (by simp [PolyWF, TermWF, xTerm, createTerm])
    (by simp [PolyWF, TermWF, xTerm, createTerm])
    (by norm_num [evaluatePolynomial, evaluateTerm, singleBinding, xTerm,
      createTerm, List.foldlM, Except.map, Bind.bind, Pure.pure,
      Except.instMonad, Except.bind, Except.pure])
    (by norm_num [evaluatePolynomial, evaluateTerm, singleBinding, xTerm,
      createTerm, List.foldlM, Except.map, Bind.bind, Pure.pure,
      Except.instMonad, Except.bind, Except.pure])
  rw [happ]
  norm_num

end SLaNg
